import Mathlib

/-!
Verification of the mistral.rs stepwise-inference core against its
natural-language specification.

The development shallowly embeds the cache-management, input-marshalling,
mixture-of-experts and in-situ-quantization code of `mistralrs-core`.
Tensors are embedded at the granularity the corresponding code manipulates
them:

* per-layer KV-cache slots are lists of time-axis entries (an entry `a : α`
  stands for one `[batch, kv_heads, :, head_dim]` slice at a fixed time
  index; `narrow`/`cat` on candle axis 2 act uniformly on those slices);
* for the full-precision Llama attention the full four-axis nested-list
  layout `[b, kv_heads, time, head_dim]` is kept, because that code reads
  `dims()[1]` and narrows `D::Minus1`, so the axis structure is essential;
* logits are three-axis nested lists `[batch, seq, vocab]`;
* fallible shape-level operations return `Option`.
-/

set_option maxHeartbeats 1000000

namespace MistralRs

/-- Candle `Tensor::narrow(dim, start, len)` restricted to one axis,
acting on the list of slices along that axis. -/
def narrowList (start len : Nat) (xs : List α) : List α :=
  (xs.drop start).take len

/-! ## Sliding-window KV cache update (models/mistral.rs, Attention::forward)

The cache slot is `Option (K, V)` in the source; `K` and `V` receive the
same treatment, so a single list models the time axis of either. The code
(mistral.rs lines 164-200) is:

```
match kv_cache.clone() {
  None => (k, v, ...),
  Some((mut prev_k, mut prev_v)) => {
    if let Some(sliding_window) = self.sliding_window {
      let kv_seq_len = prev_k.dim(2)?;
      if kv_seq_len > sliding_window {
        prev_k = prev_k.narrow(2, kv_seq_len - (sliding_window - 1), sliding_window - 1)?;
        ...
      }
    }
    let k = kvconcat(&prev_k, &k, 2)?; ...
  }
}
*kv_cache = Some((k.clone(), v.clone()));
```
-/

/-- One KV-cache update of the Mistral attention forward: `slot` is the
current cache slot (time-axis entries), `new` the freshly projected
entries of this step, `slidingWindow` the optional window. -/
def mistralAttnCacheStep (slidingWindow : Option Nat) (slot : Option (List α))
    (new : List α) : List α :=
  match slot with
  | none => new
  | some prev =>
    match slidingWindow with
    | none => prev ++ new
    | some w =>
      let kvSeqLen := prev.length
      if kvSeqLen > w then
        narrowList (kvSeqLen - (w - 1)) (w - 1) prev ++ new
      else
        prev ++ new

/-- One KV-cache update of the quantized Phi-3 attention
(models/quantized_phi3.rs, LayerWeights::forward_attn): identical trim
logic, with a mandatory `sliding_window` (set to `phi3.context_length`
at load). -/
def phi3AttnCacheStep (slidingWindow : Nat) (slot : Option (List α))
    (new : List α) : List α :=
  match slot with
  | none => new
  | some prev =>
    let kvSeqLen := prev.length
    if kvSeqLen > slidingWindow then
      narrowList (kvSeqLen - (slidingWindow - 1)) (slidingWindow - 1) prev ++ new
    else
      prev ++ new

/-- One KV-cache update of the quantized (GGUF/GGML) Llama attention
(models/quantized_llama.rs, LayerWeights::forward_attn): the new entries
are concatenated onto the cached ones with no trimming whatsoever. -/
def qLlamaAttnCacheStep (slot : Option (List α)) (new : List α) : List α :=
  match slot with
  | none => new
  | some prev => prev ++ new

/-- Running the quantized Llama cache over a whole sequence of forward
steps, starting from the empty slot. -/
def qLlamaCacheRun (inputs : List (List α)) : Option (List α) :=
  inputs.foldl (fun slot new => some (qLlamaAttnCacheStep slot new)) none

theorem narrowList_length (start len : Nat) (xs : List α) :
    (narrowList start len xs).length = min len (xs.length - start) := by
  simp [narrowList]

theorem narrowList_eq_drop (start len : Nat) (xs : List α)
    (h : xs.length - start ≤ len) : narrowList start len xs = xs.drop start := by
  simp only [narrowList]
  exact List.take_of_length_le (by simpa using h)

/-- Claim C1 (as stated in the spec) is refuted at `W = 4`,
`cached_len = 4`: appending one token yields a slot of length `5`,
not `min(4+1, 4) = 4` — the trim fires only when `cached_len > W`,
never at `cached_len = W`. -/
theorem c1_counterexample :
    ¬ ((mistralAttnCacheStep (some 4) (some [0, 1, 2, 3]) [4]).length
        = min (4 + 1) 4) := by
  decide

/-- Claim C1, amended: for a model with sliding window `W ≥ 1`, one
attention forward that appends one new token onto a slot holding
`cached_len` entries leaves the slot with `cached_len + 1` entries when
`cached_len ≤ W`, and with exactly `W` entries when `cached_len > W`
(so `min(cached_len+1, W)` holds except at `cached_len = W`, where the
slot holds `W + 1` entries). This covers both the Mistral attention and
the quantized Phi-3 attention, whose trim logic is identical. -/
theorem c1_amended (w : Nat) (hw : 1 ≤ w) (prev new : List α)
    (hnew : new.length = 1) :
    (mistralAttnCacheStep (some w) (some prev) new).length
        = (if w < prev.length then w else prev.length + 1)
      ∧ (phi3AttnCacheStep w (some prev) new).length
        = (if w < prev.length then w else prev.length + 1) := by
  have hcore : ∀ b : List α, b.length = 1 →
      ((if prev.length > w then
          narrowList (prev.length - (w - 1)) (w - 1) prev ++ b
        else prev ++ b).length
        = if w < prev.length then w else prev.length + 1) := by
    intro b hb
    by_cases h : w < prev.length
    · have hgt : prev.length > w := h
      simp only [if_pos hgt, if_pos h, List.length_append, hb,
        narrowList_length]
      have h1 : w - 1 ≤ prev.length - (prev.length - (w - 1)) := by
        omega
      have : min (w - 1) (prev.length - (prev.length - (w - 1))) = w - 1 := by
        omega
      rw [this]
      omega
    · have hle : ¬ prev.length > w := h
      simp only [if_neg hle, if_neg h, List.length_append, hb]
  refine ⟨?_, ?_⟩
  · simpa [mistralAttnCacheStep] using hcore new hnew
  · simpa [phi3AttnCacheStep] using hcore new hnew

/-- Witness for the amended claim C1 at `W = 4` with a cached slot of
length 5 and a one-token append. -/
theorem c1_amended_witness :
    (mistralAttnCacheStep (some 4) (some [0, 1, 2, 3, 4]) [9]).length
        = (if 4 < ([0, 1, 2, 3, 4] : List Nat).length then 4
           else ([0, 1, 2, 3, 4] : List Nat).length + 1)
      ∧ (phi3AttnCacheStep 4 (some [0, 1, 2, 3, 4]) [9]).length
        = (if 4 < ([0, 1, 2, 3, 4] : List Nat).length then 4
           else ([0, 1, 2, 3, 4] : List Nat).length + 1) :=
  c1_amended 4 (by decide) [0, 1, 2, 3, 4] [9] (by decide)

/-- Claim C9: with sliding window `W = 4`, a slot holding five time
entries before a one-token attention step ends the step holding exactly
four entries: the last three entries of the previous cache followed by
the new token's entry. Holds for both the Mistral attention and the
quantized Phi-3 attention. -/
theorem c9_sliding_window_trim (prev new : List α)
    (hprev : prev.length = 5) (hnew : new.length = 1) :
    mistralAttnCacheStep (some 4) (some prev) new = prev.drop 2 ++ new
      ∧ (mistralAttnCacheStep (some 4) (some prev) new).length = 4
      ∧ phi3AttnCacheStep 4 (some prev) new = prev.drop 2 ++ new
      ∧ (phi3AttnCacheStep 4 (some prev) new).length = 4 := by
  have hgt : prev.length > 4 := by omega
  have hnarrow : narrowList (prev.length - (4 - 1)) (4 - 1) prev = prev.drop 2 := by
    rw [narrowList_eq_drop _ _ _ (by omega)]
    congr 1
    omega
  have hlen : (prev.drop 2 ++ new).length = 4 := by
    simp [hprev, hnew]
  refine ⟨?_, ?_, ?_, ?_⟩
  · simp [mistralAttnCacheStep, if_pos hgt, hnarrow]
  · simp [mistralAttnCacheStep, if_pos hgt, hnarrow, hlen]
  · simp [phi3AttnCacheStep, if_pos hgt, hnarrow]
  · simp [phi3AttnCacheStep, if_pos hgt, hnarrow, hlen]

/-- Witness for claim C9 at a concrete five-entry cache. -/
theorem c9_sliding_window_trim_witness :
    mistralAttnCacheStep (some 4) (some [0, 1, 2, 3, 4]) [9]
        = ([0, 1, 2, 3, 4] : List Nat).drop 2 ++ [9]
      ∧ (mistralAttnCacheStep (some 4) (some [0, 1, 2, 3, 4]) [9]).length = 4
      ∧ phi3AttnCacheStep 4 (some [0, 1, 2, 3, 4]) [9]
        = ([0, 1, 2, 3, 4] : List Nat).drop 2 ++ [9]
      ∧ (phi3AttnCacheStep 4 (some [0, 1, 2, 3, 4]) [9]).length = 4 :=
  c9_sliding_window_trim [0, 1, 2, 3, 4] [9] (by decide) (by decide)

/-- Folding the quantized Llama cache from any starting slot appends the
concatenation of all step inputs. -/
theorem qLlamaCacheRun_foldl (inputs : List (List α)) (acc : List α) :
    inputs.foldl (fun slot new => some (qLlamaAttnCacheStep slot new))
        (some acc) = some (acc ++ inputs.flatten) := by
  induction inputs generalizing acc with
  | nil => simp
  | cons hd tl ih =>
    rw [List.foldl_cons,
      show qLlamaAttnCacheStep (some acc) hd = acc ++ hd from rfl, ih]
    simp

/-- Claim C3 (as stated) is refuted on the quantized Llama model: with
`max_seq_len = 2`, three decode steps of one token each leave the cache
slot with three entries, exceeding `max_seq_len`. -/
theorem c3_counterexample :
    ¬ (((qLlamaCacheRun [[0], [1], [2]]).getD []).length ≤ 2) := by
  decide

/-- Claim C3, amended: the quantized (GGUF/GGML) Llama attention never
trims its cache, so after any number of forward steps the slot holds the
concatenation of every step's entries and its length is the total number
of tokens forwarded; the invariant `cached_len ≤ max_seq_len` therefore
holds exactly when that total does not exceed `max_seq_len`. -/
theorem c3_amended (inputs : List (List α)) (hne : inputs ≠ []) :
    qLlamaCacheRun inputs = some inputs.flatten
      ∧ ((qLlamaCacheRun inputs).getD []).length
          = (inputs.map List.length).sum := by
  match inputs, hne with
  | hd :: tl, _ =>
    have h1 : qLlamaCacheRun (hd :: tl) = some (hd ++ tl.flatten) := by
      simp only [qLlamaCacheRun, List.foldl_cons, qLlamaAttnCacheStep]
      exact qLlamaCacheRun_foldl tl hd
    refine ⟨by simpa using h1, ?_⟩
    rw [h1]
    simp

/-- Witness for the amended claim C3 at three one-token steps. -/
theorem c3_amended_witness :
    qLlamaCacheRun [[0], [1], [2]] = some ([[0], [1], [2]] : List (List Nat)).flatten
      ∧ ((qLlamaCacheRun [[0], [1], [2]]).getD []).length
          = (([[0], [1], [2]] : List (List Nat)).map List.length).sum :=
  c3_amended [[0], [1], [2]] (by decide)

/-! ## Full-precision Llama KV cache update (models/llama.rs and
xlora_models/llama.rs, CausalSelfAttention::forward)

Here the full four-axis layout matters. After the projections and rope,
`k` and `v` have shape `[b, num_key_value_heads, time, head_dim]`. The
source reads

```
let k_seq_len = k.dims()[1];
if k_seq_len > self.max_seq_len {
    k = k.narrow(D::Minus1, k_seq_len - self.max_seq_len, self.max_seq_len)?...
}
let v_seq_len = v.dims()[1];
if v_seq_len > 2 * self.max_seq_len {
    v = v.narrow(D::Minus1, v_seq_len - self.max_seq_len, self.max_seq_len)?...
}
```

so the size checks read axis 1 (the kv-head axis, not the time axis 2)
and the narrow acts on the last axis (head_dim, not time). -/

/-- Four-axis tensor as nested lists, layout `[b, kv_heads, time, head_dim]`. -/
abbrev T4 (α : Type u) := List (List (List (List α)))

/-- Candle `dims()[1]` of a four-axis nested-list tensor. -/
def t4dim1 (t : T4 α) : Nat := ((t.head?.map List.length).getD 0)

/-- Candle `dims()[2]` (the time axis) of a four-axis nested-list tensor. -/
def t4dim2 (t : T4 α) : Nat := (((t.head?.bind List.head?).map List.length).getD 0)

/-- Candle `Tensor::cat` / `kvconcat` along axis 2 of two shape-compatible
four-axis tensors. -/
def catD2 (a b : T4 α) : T4 α :=
  a.zipWith (fun x y => x.zipWith (fun p q => p ++ q) y) b

/-- Candle `Tensor::narrow(D::Minus1, start, len)` on a four-axis tensor:
acts on the innermost (head_dim) axis. -/
def narrowD3 (start len : Nat) (t : T4 α) : T4 α :=
  t.map (fun x => x.map (fun y => y.map (narrowList start len)))

/-- One KV-cache update of the full-precision Llama attention
(models/llama.rs, CausalSelfAttention::forward), transcribing the axis
choices of the source: the size checks read `dims()[1]` and the narrow
acts on `D::Minus1`. -/
def llamaAttnKvUpdate (maxSeqLen : Nat) (slot : Option (T4 α × T4 α))
    (newK newV : T4 α) : T4 α × T4 α :=
  match slot with
  | none => (newK, newV)
  | some (cacheK, cacheV) =>
    let k := catD2 cacheK newK
    let v := catD2 cacheV newV
    let kSeqLen := t4dim1 k
    let k := if kSeqLen > maxSeqLen then
        narrowD3 (kSeqLen - maxSeqLen) maxSeqLen k
      else k
    let vSeqLen := t4dim1 v
    let v := if vSeqLen > 2 * maxSeqLen then
        narrowD3 (vSeqLen - maxSeqLen) maxSeqLen v
      else v
    (k, v)

/-- One KV-cache update of the X-LoRA Llama attention
(xlora_models/llama.rs, CausalSelfAttention::forward); the source lines
are identical to the plain Llama ones. -/
def xloraLlamaAttnKvUpdate (maxSeqLen : Nat) (slot : Option (T4 α × T4 α))
    (newK newV : T4 α) : T4 α × T4 α :=
  match slot with
  | none => (newK, newV)
  | some (cacheK, cacheV) =>
    let k := catD2 cacheK newK
    let v := catD2 cacheV newV
    let kSeqLen := t4dim1 k
    let k := if kSeqLen > maxSeqLen then
        narrowD3 (kSeqLen - maxSeqLen) maxSeqLen k
      else k
    let vSeqLen := t4dim1 v
    let v := if vSeqLen > 2 * maxSeqLen then
        narrowD3 (vSeqLen - maxSeqLen) maxSeqLen v
      else v
    (k, v)

/-- Claim C2 (as stated) is refuted: with `max_seq_len = 1` (so `2W = 2`),
one kv head and head_dim 1, a cached K/V of time length 3 plus a one-token
append gives cached length 4 > 2W, yet the stored K and V keep all 4 time
entries instead of the most recent `W = 1` — the eviction condition reads
the kv-head axis `dims()[1]`, which is 1 here, so it never fires. -/
theorem c2_counterexample :
    (t4dim2 ((llamaAttnKvUpdate 1
        (some (([[[[0], [1], [2]]]] : T4 Nat), [[[[0], [1], [2]]]]))
        [[[[3]]]] [[[[3]]]]).1) = 4)
      ∧ (t4dim2 ((llamaAttnKvUpdate 1
        (some (([[[[0], [1], [2]]]] : T4 Nat), [[[[0], [1], [2]]]]))
        [[[[3]]]] [[[[3]]]]).2) = 4)
      ∧ ¬ (t4dim2 ((llamaAttnKvUpdate 1
        (some (([[[[0], [1], [2]]]] : T4 Nat), [[[[0], [1], [2]]]]))
        [[[[3]]]] [[[[3]]]]).1) = 1) := by
  refine ⟨?_, ?_, ?_⟩ <;> decide

/-- Claim C2, amended: in the full-precision Llama attention (plain and
X-LoRA variants) the eviction checks compare the kv-head-axis size
`dims()[1]` — not the cached time length — against `max_seq_len` and
`2·max_seq_len`, and the narrow they guard acts on the head-dim axis.
Consequently, whenever the number of kv heads is at most `max_seq_len`,
the concatenated K and V are stored untrimmed along every axis for every
cached length, including cached lengths exceeding `2·max_seq_len`. -/
theorem c2_amended (maxSeqLen : Nat) (cacheK cacheV newK newV : T4 α)
    (hk : t4dim1 (catD2 cacheK newK) ≤ maxSeqLen)
    (hv : t4dim1 (catD2 cacheV newV) ≤ 2 * maxSeqLen) :
    llamaAttnKvUpdate maxSeqLen (some (cacheK, cacheV)) newK newV
        = (catD2 cacheK newK, catD2 cacheV newV)
      ∧ xloraLlamaAttnKvUpdate maxSeqLen (some (cacheK, cacheV)) newK newV
        = (catD2 cacheK newK, catD2 cacheV newV) := by
  constructor
  · simp only [llamaAttnKvUpdate]
    rw [if_neg (by omega), if_neg (by omega)]
  · simp only [xloraLlamaAttnKvUpdate]
    rw [if_neg (by omega), if_neg (by omega)]

/-- Witness for the amended claim C2 at the concrete counterexample
shapes: one kv head, `max_seq_len = 1`, cached time length 3. -/
theorem c2_amended_witness :
    llamaAttnKvUpdate 1
        (some (([[[[0], [1], [2]]]] : T4 Nat), [[[[0], [1], [2]]]]))
        [[[[3]]]] [[[[3]]]]
      = (catD2 [[[[0], [1], [2]]]] [[[[3]]]], catD2 [[[[0], [1], [2]]]] [[[[3]]]])
      ∧ xloraLlamaAttnKvUpdate 1
        (some (([[[[0], [1], [2]]]] : T4 Nat), [[[[0], [1], [2]]]]))
        [[[[3]]]] [[[[3]]]]
      = (catD2 [[[[0], [1], [2]]]] [[[[3]]]], catD2 [[[[0], [1], [2]]]] [[[[3]]]]) :=
  c2_amended 1 [[[[0], [1], [2]]]] [[[[0], [1], [2]]]] [[[[3]]]] [[[[3]]]]
    (by decide) (by decide)

/-! ## Input marshaller (pipeline/mod.rs, get_prompt_input /
get_completion_input / extract_logits)

`Pipeline::step` always calls `calculate_inputs(..., None)`, so the
`last_n_context_len` argument of the marshallers is `None`; the embedding
specializes to that call. Token ids are `Nat`, the padding token id is 0.
`get_prompt_input` panics on an empty batch (`.max().expect("No
sequences")`); the embedding uses `foldl max 0` and theorems that need a
batch assume it nonempty. -/

/-- The `InputMetadata` record of pipeline/mod.rs: the dense input tensor
(rows of token ids), per-sequence offsets, the `[B, q_len]` position
kernel tensor, the `(start, len)` context lengths, and the position ids. -/
structure InputMeta where
  input : List (List Nat)
  positions : List Nat
  positionsKernel : List (List Int)
  contextLens : List (Nat × Nat)
  positionIds : List Nat
  deriving DecidableEq, Repr

/-- `get_prompt_input` with `last_n_context_len = None`: pad every token
list to the batch max with token 0, offset 0 per sequence, position rows
`0..max_len`, context lens `(len - 1, 1)`. -/
def get_prompt_input (seqs : List (List Nat)) : InputMeta :=
  let maxLen := (seqs.map List.length).foldl max 0
  { input := seqs.map (fun s => s ++ List.replicate (maxLen - s.length) 0)
    positions := seqs.map (fun _ => 0)
    positionsKernel := seqs.map (fun _ => (List.range maxLen).map (fun x => (x : Int)))
    contextLens := seqs.map (fun s => (s.length - 1, 1))
    positionIds := seqs.map List.length }

/-- `get_completion_input` with `last_n_context_len = None`: with a KV
cache, submit `toks[len.saturating_sub(1)..]` per sequence, offset
`len - 1`, a one-column position kernel, context lens `(0, 1)`; without a
KV cache it falls back to `get_prompt_input`. -/
def get_completion_input (seqs : List (List Nat)) (noKvCache : Bool) : InputMeta :=
  if noKvCache then get_prompt_input seqs
  else
    { input := seqs.map (fun s => s.drop (s.length - 1))
      positions := seqs.map (fun s => s.length - 1)
      positionsKernel := seqs.map (fun s => [((s.length - 1 : Nat) : Int)])
      contextLens := seqs.map (fun _ => (0, 1))
      positionIds := seqs.map List.length }

/-- Three-axis tensor as nested lists, layout `[batch, seq, vocab]`. -/
abbrev T3 (α : Type u) := List (List (List α))

/-- The shape of a three-axis nested-list tensor (of its first fibers). -/
def t3shape (t : T3 α) : List Nat :=
  [t.length, (t.head?.map List.length).getD 0,
    ((t.head?.bind List.head?).map List.length).getD 0]

/-- Candle `logits.chunk(logits.dims()[0], 0)`: split along axis 0 into
per-batch-row tensors of shape `[1, seq, vocab]`. -/
def chunk0 (t : T3 α) : List (T3 α) := t.map (fun m => [m])

/-- Candle `Tensor::narrow(1, start, len)` on a three-axis tensor. -/
def narrowD1 (start len : Nat) (t : T3 α) : T3 α :=
  t.map (narrowList start len)

/-- `extract_logits` of pipeline/mod.rs: chunk the logits along axis 0,
narrow each chunk along axis 1 by its `(start, len)` context length, and
concatenate the results back along axis 0. -/
def extract_logits (logits : T3 α) (contextLens : List (Nat × Nat)) : T3 α :=
  (((chunk0 logits).zip contextLens).map
    (fun p => narrowD1 p.2.1 p.2.2 p.1)).flatten

theorem extract_logits_zip (logits : T3 α) (ctx : List (Nat × Nat)) :
    extract_logits logits ctx
      = (logits.zip ctx).map (fun p => narrowList p.2.1 p.2.2 p.1) := by
  induction logits generalizing ctx with
  | nil => simp [extract_logits, chunk0]
  | cons m ms ih =>
    cases ctx with
    | nil => simp [extract_logits, chunk0]
    | cons c cs =>
      have h : extract_logits (m :: ms) (c :: cs)
          = narrowList c.1 c.2 m :: extract_logits ms cs := rfl
      rw [h, ih cs]
      rfl

theorem narrowList_last_one [Inhabited α] (m : List α) (L : Nat) (hm : m.length = L)
    (hL : 1 ≤ L) : narrowList (L - 1) 1 m = [m.getD (L - 1) default] := by
  have hlt : L - 1 < m.length := by omega
  show (m.drop (L - 1)).take 1 = _
  rw [List.drop_eq_getElem_cons hlt, List.getD_eq_getElem m default hlt]
  rfl

/-- Claim C4 (as stated) is refuted at `B = 1`, `L = 2`, `V = 2`: the
extracted tensor is `[[[7, 8]]]` of shape `[1, 1, 2]`, not the claimed
shape `[B, V] = [1, 2]` — `narrow` keeps the rank, so a singleton seq
axis remains. -/
theorem c4_counterexample :
    extract_logits [[[5, 6], [7, 8]]]
        (get_prompt_input [[1, 2]]).contextLens = ([[[7, 8]]] : T3 Nat)
      ∧ ¬ (t3shape (extract_logits ([[[5, 6], [7, 8]]] : T3 Nat)
          (get_prompt_input [[1, 2]]).contextLens) = [1, 2]) := by
  constructor
  · decide
  · decide

/-- Claim C4, amended: for a prefill batch in which every sequence has
length `L ≥ 1` and model logits of shape `[B, L, V]`, `extract_logits`
with the marshaller's context lens returns the tensor of shape
`[B, 1, V]` whose row `b` is the single slice `logits[b, L-1, :]` — only
the last token's logit per sequence is extracted, but the singleton seq
axis is retained rather than squeezed to `[B, V]`. -/
theorem c4_amended [Inhabited α] (logits : T3 α) (seqs : List (List Nat))
    (L V : Nat) (hL : 1 ≤ L) (hB : 1 ≤ logits.length)
    (hlen : seqs.length = logits.length)
    (hseq : ∀ s ∈ seqs, s.length = L)
    (hrow : ∀ m ∈ logits, m.length = L)
    (hv : ∀ m ∈ logits, ∀ r ∈ m, r.length = V) :
    extract_logits logits (get_prompt_input seqs).contextLens
        = logits.map (fun m => [m.getD (L - 1) default])
      ∧ t3shape (extract_logits logits (get_prompt_input seqs).contextLens)
        = [logits.length, 1, V] := by
  have hmap : extract_logits logits (get_prompt_input seqs).contextLens
      = logits.map (fun m => [m.getD (L - 1) default]) := by
    rw [show (get_prompt_input seqs).contextLens
        = seqs.map (fun s => (s.length - 1, 1)) from rfl]
    rw [extract_logits_zip]
    clear hB
    induction logits generalizing seqs with
    | nil => simp
    | cons m ms ih =>
      cases seqs with
      | nil => simp at hlen
      | cons s ss =>
        simp only [List.map_cons, List.zip_cons_cons]
        have hs : s.length = L := hseq s (by simp)
        have hm : m.length = L := hrow m (by simp)
        rw [hs, narrowList_last_one m L hm hL,
          ih ss (by simpa using hlen)
            (fun x hx => hseq x (by simp [hx]))
            (fun x hx => hrow x (by simp [hx]))
            (fun x hx => hv x (by simp [hx]))]
  refine ⟨hmap, ?_⟩
  rw [hmap]
  obtain ⟨m, ms, rfl⟩ : ∃ m ms, logits = m :: ms := by
    cases logits with
    | nil => simp at hB
    | cons m ms => exact ⟨m, ms, rfl⟩
  · have hm : m.length = L := hrow m (List.mem_cons_self m ms)
    have hlt : L - 1 < m.length := by omega
    have hmV : (m.getD (L - 1) default).length = V := by
      rw [List.getD_eq_getElem m default hlt]
      exact hv m (List.mem_cons_self m ms) _ (m.getElem_mem hlt)
    have hgoal : (m[(L - 1)]?.getD default).length = V := by
      rw [← List.getD_eq_getElem?_getD]
      exact hmV
    simp [t3shape, hgoal]

/-- Witness for the amended claim C4 at `B = 1`, `L = 2`, `V = 2`. -/
theorem c4_amended_witness :
    extract_logits ([[[5, 6], [7, 8]]] : T3 Nat)
        (get_prompt_input [[1, 2]]).contextLens
        = ([[[5, 6], [7, 8]]] : T3 Nat).map (fun m => [m.getD (2 - 1) default])
      ∧ t3shape (extract_logits ([[[5, 6], [7, 8]]] : T3 Nat)
          (get_prompt_input [[1, 2]]).contextLens)
        = [([[[5, 6], [7, 8]]] : T3 Nat).length, 1, 2] :=
  c4_amended [[[5, 6], [7, 8]]] [[1, 2]] 2 2 (by decide) (by decide)
    (by decide) (by decide) (by decide) (by decide)

theorem drop_length_sub_one_eq [Inhabited α] (s : List α) (hs : s ≠ []) :
    s.drop (s.length - 1) = [s.getLastD default] := by
  induction s with
  | nil => simp at hs
  | cons a t ih =>
    cases t with
    | nil => simp
    | cons b t2 =>
      have h1 : (a :: b :: t2).length - 1 = (b :: t2).length := by simp
      rw [h1, show ((a : α) :: b :: t2).drop (b :: t2).length
          = (b :: t2).drop ((b :: t2).length - 1) from by simp]
      rw [ih (by simp)]
      simp

/-- Claim C5: in decode mode (every sequence already has a cache,
`no_kv_cache = false`), the marshalled input holds exactly each
sequence's last token, the per-sequence offset is `len - 1`, the
position kernel is the `[B, 1]` tensor of those offsets, and the context
lens are `(0, 1)` for every sequence. -/
theorem c5_completion_input (seqs : List (List Nat))
    (hne : ∀ s ∈ seqs, s ≠ []) :
    (get_completion_input seqs false).input
        = seqs.map (fun s => [s.getLastD default])
      ∧ (get_completion_input seqs false).positions
        = seqs.map (fun s => s.length - 1)
      ∧ (get_completion_input seqs false).positionsKernel
        = seqs.map (fun s => [((s.length - 1 : Nat) : Int)])
      ∧ (get_completion_input seqs false).contextLens
        = List.replicate seqs.length (0, 1) := by
  refine ⟨?_, rfl, rfl, ?_⟩
  · show seqs.map (fun s => s.drop (s.length - 1)) = _
    exact List.map_congr_left (fun s hs => drop_length_sub_one_eq s (hne s hs))
  · show seqs.map (fun _ => ((0 : Nat), (1 : Nat))) = _
    simp [List.map_const']

/-- Witness for claim C5 on a concrete two-sequence decode batch. -/
theorem c5_completion_input_witness :
    (get_completion_input [[3, 4, 5], [7]] false).input
        = ([[3, 4, 5], [7]] : List (List Nat)).map (fun s => [s.getLastD default])
      ∧ (get_completion_input [[3, 4, 5], [7]] false).positions
        = ([[3, 4, 5], [7]] : List (List Nat)).map (fun s => s.length - 1)
      ∧ (get_completion_input [[3, 4, 5], [7]] false).positionsKernel
        = ([[3, 4, 5], [7]] : List (List Nat)).map
            (fun s => [((s.length - 1 : Nat) : Int)])
      ∧ (get_completion_input [[3, 4, 5], [7]] false).contextLens
        = List.replicate ([[3, 4, 5], [7]] : List (List Nat)).length (0, 1) :=
  c5_completion_input [[3, 4, 5], [7]] (by decide)

/-! ## In-situ quantization (pipeline/mod.rs, NormalModel::quantize)

The pass iterates every collected projection; a projection in the
full-precision state `QMatMul::Tensor(t)` is rewritten to
`QMatMul::QTensor(QTensor::quantize(&t.to_device(dev), dtype))` and a
projection already in the `QTensor` state is left untouched. The
block-quantization kernel and device move are abstracted into a function
`q` (fixed once the dtype is fixed); the worker pool only parallelizes
independent per-tensor work, so a plain map is the sequential meaning. -/

/-- The two states of a projection (candle `QMatMul`): a full-precision
weight tensor or a block-quantized tensor. -/
inductive QProj (α β : Type u) where
  | tensor (w : α)
  | qtensor (w : β)
  deriving DecidableEq

/-- Whether a projection is in the block-quantized state. -/
def QProj.isQuantized : QProj α β → Bool
  | .tensor _ => false
  | .qtensor _ => true

/-- One projection of the in-situ quantization pass. -/
def quantizeProj (q : α → β) : QProj α β → QProj α β
  | .tensor w => .qtensor (q w)
  | .qtensor w => .qtensor w

/-- The whole in-situ quantization pass over the collected projections. -/
def quantizeModel (q : α → β) (ts : List (QProj α β)) : List (QProj α β) :=
  ts.map (quantizeProj q)

/-- Claim C7: after one `quantize(dtype)` call every collected projection
is in the block-quantized state, and a second call with the same dtype
modifies no tensor — it leaves the model identical to the state after
one call. -/
theorem c7_quantize_idempotent (q : α → β) (ts : List (QProj α β)) :
    (∀ t ∈ quantizeModel q ts, t.isQuantized = true)
      ∧ quantizeModel q (quantizeModel q ts) = quantizeModel q ts := by
  constructor
  · intro t ht
    rw [quantizeModel, List.mem_map] at ht
    obtain ⟨s, _, rfl⟩ := ht
    cases s <;> rfl
  · rw [quantizeModel, quantizeModel, List.map_map]
    refine List.map_congr_left (fun s _ => ?_)
    cases s <;> rfl

/-- Witness for claim C7 on a two-projection model, one projection still
full precision and one already quantized. -/
theorem c7_quantize_idempotent_witness :
    (∀ t ∈ quantizeModel (fun n : Nat => n + 1)
        [QProj.tensor 3, QProj.qtensor 5], t.isQuantized = true)
      ∧ quantizeModel (fun n : Nat => n + 1)
          (quantizeModel (fun n : Nat => n + 1)
            [QProj.tensor 3, QProj.qtensor 5])
        = quantizeModel (fun n : Nat => n + 1)
            [QProj.tensor 3, QProj.qtensor 5] :=
  c7_quantize_idempotent (fun n : Nat => n + 1) [QProj.tensor 3, QProj.qtensor 5]

/-! ## Step orchestration (pipeline/mod.rs, Pipeline::step)

`step` marshals inputs, dispatches the cache pre-op, calls
`forward_inputs` (whose `?` aborts the step on error), dispatches the
cache post-op, and finally calls `sample` (also `?`-propagated). The
`unreachable!` arms of the pre/post dispatch are modelled as `none`. The
cache store and the per-sequence sampler outputs are the mutable state;
`forward` may itself rewrite the cache (the per-layer KV appends). -/

/-- The `CacheInstruction` enum of pipeline/mod.rs. -/
inductive CacheInstr where
  | inOp
  | outOp
  | reset (resetNonGranular : Bool)
  | nonthing
  deriving DecidableEq

/-- The mutable state a `Pipeline::step` call acts on: the model-side
cache store plus the sampler output recorded in the sequences. -/
structure StepState (C S : Type u) where
  cache : C
  sampler : S
  deriving DecidableEq

/-- The pre-op dispatch of `Pipeline::step`; `Out` hits `unreachable!`. -/
def applyPreOp (cloneIn : C → C) (resetCache : Bool → C → C) :
    CacheInstr → C → Option C
  | .inOp, c => some (cloneIn c)
  | .nonthing, c => some c
  | .reset b, c => some (resetCache b c)
  | .outOp, _ => none

/-- The post-op dispatch of `Pipeline::step`; `In` hits `unreachable!`. -/
def applyPostOp (cloneOut : C → C) (resetCache : Bool → C → C) :
    CacheInstr → C → Option C
  | .outOp, c => some (cloneOut c)
  | .nonthing, c => some c
  | .reset b, c => some (resetCache b c)
  | .inOp, _ => none

/-- `Pipeline::step`: pre-op, forward, post-op, sample, returning the
final mutable state together with the propagated result; `none` models
the `unreachable!` panics of an illegal pre/post op. -/
def pipelineStep (cloneIn cloneOut : C → C) (resetCache : Bool → C → C)
    (forward : C → Except E (C × L)) (sampleFn : S → L → Except E S)
    (pre post : CacheInstr) (st : StepState C S) :
    Option (StepState C S × Except E Unit) :=
  match applyPreOp cloneIn resetCache pre st.cache with
  | none => none
  | some c1 =>
    match forward c1 with
    | .error e => some ({ cache := c1, sampler := st.sampler }, .error e)
    | .ok (c2, logits) =>
      match applyPostOp cloneOut resetCache post c2 with
      | none => none
      | some c3 =>
        match sampleFn st.sampler logits with
        | .error e => some ({ cache := c3, sampler := st.sampler }, .error e)
        | .ok s2 => some ({ cache := c3, sampler := s2 }, .ok ())

/-- Claim C8: in `Pipeline::step` the cache pre-op is applied before the
model forward and the post-op after it; if `forward_inputs` errors, the
step returns that error with the post-op not applied (the cache holds
exactly the pre-op result) and `sample` not invoked, so the sampler
output is unchanged. -/
theorem c8_step_order (cloneIn cloneOut : C → C) (resetCache : Bool → C → C)
    (forward : C → Except E (C × L)) (sampleFn : S → L → Except E S)
    (pre post : CacheInstr) (st : StepState C S) (c1 : C)
    (hpre : applyPreOp cloneIn resetCache pre st.cache = some c1) :
    (∀ e, forward c1 = .error e →
      pipelineStep cloneIn cloneOut resetCache forward sampleFn pre post st
        = some ({ cache := c1, sampler := st.sampler }, .error e))
      ∧ (∀ c2 logits c3 s2, forward c1 = .ok (c2, logits) →
          applyPostOp cloneOut resetCache post c2 = some c3 →
          sampleFn st.sampler logits = .ok s2 →
          pipelineStep cloneIn cloneOut resetCache forward sampleFn pre post st
            = some ({ cache := c3, sampler := s2 }, .ok ())) := by
  constructor
  · intro e he
    rw [pipelineStep, hpre]
    simp [he]
  · intro c2 logits c3 s2 hok hpost hsample
    rw [pipelineStep, hpre]
    simp [hok, hpost, hsample]

/-- Witness for claim C8 with a concrete failing forward pass: the step
returns the error, the cache holds the pre-op result, the sampler output
is untouched. -/
theorem c8_step_order_witness :
    (applyPreOp (fun c : Nat => c + 10) (fun _ _ => 0)
        CacheInstr.inOp (⟨5, 77⟩ : StepState Nat Nat).cache = some 15)
      ∧ ((∀ e : Nat, (fun _ : Nat => (.error 7 : Except Nat (Nat × Nat))) 15 = .error e →
          pipelineStep (fun c => c + 10) (fun c => c + 100) (fun _ _ => 0)
            (fun _ => (.error 7 : Except Nat (Nat × Nat)))
            (fun s _ => (.ok (s + 1) : Except Nat Nat))
            CacheInstr.inOp CacheInstr.outOp ⟨5, 77⟩
            = some ({ cache := 15, sampler := 77 }, .error e))
        ∧ (∀ c2 logits c3 s2,
            (fun _ : Nat => (.error 7 : Except Nat (Nat × Nat))) 15 = .ok (c2, logits) →
            applyPostOp (fun c => c + 100) (fun _ _ => 0) CacheInstr.outOp c2 = some c3 →
            (fun s _ : Nat => (.ok (s + 1) : Except Nat Nat)) 77 logits = .ok s2 →
            pipelineStep (fun c => c + 10) (fun c => c + 100) (fun _ _ => 0)
              (fun _ => (.error 7 : Except Nat (Nat × Nat)))
              (fun s _ => (.ok (s + 1) : Except Nat Nat))
              CacheInstr.inOp CacheInstr.outOp ⟨5, 77⟩
              = some ({ cache := c3, sampler := s2 }, .ok ()))) :=
  ⟨rfl, c8_step_order (fun c => c + 10) (fun c => c + 100) (fun _ _ => 0)
    (fun _ => (.error 7 : Except Nat (Nat × Nat)))
    (fun s _ => (.ok (s + 1) : Except Nat Nat))
    CacheInstr.inOp CacheInstr.outOp ⟨5, 77⟩ 15 rfl⟩

/-! ## Quantized Phi-3 fused-QKV split (quantized_phi3.rs,
LayerWeights::forward_attn, lines 79-99)

The fused projection output of shape `[b, seq_len, qkv_width]` is narrowed
along the last axis into Q (`n_head·head_dim` columns), K and V
(`n_kv_head·head_dim` columns each); then

```
let k = k.reshape((b_sz, seq_len, self.n_head, self.head_dim))?...
```

reshapes the K slice to `n_head` — not `n_kv_head` — heads. Shape-level
embedding of this stage: candle `narrow` succeeds iff the window fits,
`reshape` iff the element counts agree. -/

/-- Candle `Tensor::narrow(D::Minus1, start, len)` at shape level on a
`[b, seq, width]` tensor: the result width, or `none` on a shape error. -/
def narrowLastWidth (width start len : Nat) : Option Nat :=
  if start + len ≤ width then some len else none

/-- Candle `Tensor::reshape` at shape level: the target dims, or `none`
when the element counts disagree. -/
def reshapeDims (fromDims toDims : List Nat) : Option (List Nat) :=
  if toDims.prod = fromDims.prod then some toDims else none

/-- The fused-QKV narrow/reshape stage of the quantized Phi-3
`forward_attn`: returns the shapes of Q, K and V after the reshapes, or
`none` if any candle op reports a shape error. The K reshape targets
`(b_sz, seq_len, n_head, head_dim)` exactly as the source does. -/
def phi3QkvShapes (b seqLen nHead nKvHead headDim qkvWidth : Nat) :
    Option (List Nat × List Nat × List Nat) := do
  let queryPos := nHead * headDim
  let qW ← narrowLastWidth qkvWidth 0 queryPos
  let kW ← narrowLastWidth qkvWidth queryPos (nKvHead * headDim)
  let vW ← narrowLastWidth qkvWidth (queryPos + nKvHead * headDim)
      (nKvHead * headDim)
  let qDims ← reshapeDims [b, seqLen, qW] [b, seqLen, nHead, headDim]
  let kDims ← reshapeDims [b, seqLen, kW] [b, seqLen, nHead, headDim]
  let vDims ← reshapeDims [b, seqLen, vW] [b, seqLen, nKvHead, headDim]
  pure (qDims, kDims, vDims)

/-- Claim C10: in the quantized Phi-3 attention the fused QKV output is
narrowed so K has `n_kv_head·head_dim` columns but K is then reshaped to
`(b, seq_len, n_head, head_dim)`; for nonzero batch, sequence length and
head_dim (and a fused projection wide enough for the three narrows), the
stage succeeds only when `head_count_kv = head_count`, and whenever
`head_count_kv < head_count` the K reshape returns a shape error. -/
theorem c10_phi3_k_reshape (b seqLen nHead nKvHead headDim qkvWidth : Nat)
    (hb : 0 < b) (hs : 0 < seqLen) (hd : 0 < headDim)
    (hw : nHead * headDim + 2 * (nKvHead * headDim) ≤ qkvWidth) :
    (nKvHead < nHead →
      phi3QkvShapes b seqLen nHead nKvHead headDim qkvWidth = none)
      ∧ (∀ r, phi3QkvShapes b seqLen nHead nKvHead headDim qkvWidth = some r →
          nKvHead = nHead) := by
  have hq : narrowLastWidth qkvWidth 0 (nHead * headDim)
      = some (nHead * headDim) := by
    rw [narrowLastWidth, if_pos (by omega)]
  have hk : narrowLastWidth qkvWidth (nHead * headDim) (nKvHead * headDim)
      = some (nKvHead * headDim) := by
    rw [narrowLastWidth, if_pos (by omega)]
  have hv : narrowLastWidth qkvWidth (nHead * headDim + nKvHead * headDim)
      (nKvHead * headDim) = some (nKvHead * headDim) := by
    rw [narrowLastWidth, if_pos (by omega)]
  have hqr : reshapeDims [b, seqLen, nHead * headDim]
      [b, seqLen, nHead, headDim] = some [b, seqLen, nHead, headDim] := by
    rw [reshapeDims, if_pos]
    simp only [List.prod_cons, List.prod_nil]
    ring
  have hcond : (b * (seqLen * (nHead * (headDim * 1)))
      = b * (seqLen * (nKvHead * headDim * 1))) ↔ nKvHead = nHead := by
    constructor
    · intro h
      have h1 := Nat.eq_of_mul_eq_mul_left hb h
      have h2 := Nat.eq_of_mul_eq_mul_left hs h1
      have h3 : nHead * headDim = nKvHead * headDim := by
        simpa using h2
      exact (Nat.eq_of_mul_eq_mul_right hd h3).symm
    · intro h
      subst h
      ring
  have hkr : reshapeDims [b, seqLen, nKvHead * headDim]
        [b, seqLen, nHead, headDim]
      = if nKvHead = nHead then some [b, seqLen, nHead, headDim] else none := by
    rw [reshapeDims]
    simp only [List.prod_cons, List.prod_nil]
    by_cases hEq : nKvHead = nHead
    · rw [if_pos (hcond.mpr hEq), if_pos hEq]
    · rw [if_neg (fun hcontra => hEq (hcond.mp hcontra)), if_neg hEq]
  constructor
  · intro hlt
    simp [phi3QkvShapes, hq, hk, hv, hqr, hkr,
      if_neg (by omega : ¬ nKvHead = nHead)]
  · intro r hr
    by_contra hne
    simp [phi3QkvShapes, hq, hk, hv, hqr, hkr, if_neg hne] at hr

/-- Witness for claim C10 at `b = 1`, `seq_len = 1`, `n_head = 4`,
`n_kv_head = 2`, `head_dim = 3`. -/
theorem c10_phi3_k_reshape_witness :
    ((2 < 4 → phi3QkvShapes 1 1 4 2 3 30 = none)
      ∧ (∀ r, phi3QkvShapes 1 1 4 2 3 30 = some r → 2 = 4)) :=
  c10_phi3_k_reshape 1 1 4 2 3 30 (by decide) (by decide) (by decide)
    (by decide)

/-! ## Mixture-of-Experts feed-forward (quantized_llama.rs, MlpOrMoe::forward)

The source flattens the input to `[b·q, D]` rows, computes
`softmax(gate_inp(x))` per row, extracts the raw weights to host memory
and, per row, sorts the expert indices by `total_cmp` descending (Rust
`sort_by` is a stable merge sort; on softmax outputs there are no NaNs,
so `total_cmp` coincides with the numeric order), takes the first
`n_expert_used`, accumulates their weight sum, and pushes the row index
and the renormalized weight onto the per-expert vectors `top_x` and
`selected_rws`. It then folds over the experts: an expert with an empty
`top_x` is skipped (`continue`); otherwise the chosen rows are gathered
(`index_select`), run through the expert MLP, scaled by the renormalized
weights (`broadcast_mul`) and added into the zero-initialized accumulator
at the chosen rows (`index_add`).

In the embedding a token row lives in a ℚ-module `M`; `gate` abstracts
the `gate_inp` projection followed by softmax and each expert's dense
MLP is abstracted as a row function (softmax and silu are
transcendental, so their outputs are taken as inputs here); the routing
arithmetic itself is over ℚ. -/

/-- The per-row descending stable sort of expert indices:
`dst.sort_by(|&i, &j| rw[j].total_cmp(&rw[i]))` on `dst = 0..E`. -/
def descSortIdx (rw : List ℚ) : List Nat :=
  (List.range rw.length).mergeSort (fun i j => decide (rw.getD j 0 ≤ rw.getD i 0))

/-- The `n_expert_used` expert indices chosen for one token row. -/
def selExperts (k : Nat) (rw : List ℚ) : List Nat := (descSortIdx rw).take k

/-- `sum_routing_weights`: the un-normalized sum of the chosen weights. -/
def selSum (k : Nat) (rw : List ℚ) : ℚ :=
  ((selExperts k rw).map (fun i => rw.getD i 0)).sum

/-- `top_x[e].push(v)` / `selected_rws[e].push(v)`. -/
def pushAt (l : List (List β)) (e : Nat) (v : β) : List (List β) :=
  l.set e (l.getD e [] ++ [v])

/-- One row of the bucket-building loop, `top_x` component: push the row
index onto each chosen expert's vector. -/
def bucketRowIdx (k : Nat) (tx : List (List Nat)) (p : Nat × List ℚ) :
    List (List Nat) :=
  (selExperts k p.2).foldl (fun a e => pushAt a e p.1) tx

/-- One row of the bucket-building loop, `selected_rws` component: push
the renormalized weight onto each chosen expert's vector. -/
def bucketRowW (k : Nat) (sr : List (List ℚ)) (p : Nat × List ℚ) :
    List (List ℚ) :=
  (selExperts k p.2).foldl
    (fun a e => pushAt a e (p.2.getD e 0 / selSum k p.2)) sr

/-- The whole row loop of `MlpOrMoe::forward`, building `top_x` and
`selected_rws` over the enumerated routing-weight rows. -/
def buildBuckets (nExperts k : Nat) (rws : List (List ℚ)) :
    List (List Nat) × List (List ℚ) :=
  rws.enum.foldl (fun acc p => (bucketRowIdx k acc.1 p, bucketRowW k acc.2 p))
    (List.replicate nExperts [], List.replicate nExperts [])

/-- Candle `ys.index_add(&ixs, &vals, 0)`: add row `vals[i]` into the
accumulator at row `ixs[i]`. -/
def indexAdd [AddCommMonoid M] (ys : List M) (ixs : List Nat)
    (vals : List M) : List M :=
  (ixs.zip vals).foldl (fun a p => a.set p.1 (a.getD p.1 0 + p.2)) ys

/-- One expert iteration of `MlpOrMoe::forward`: skip when the expert's
bucket is empty, else gather the chosen rows, run the expert, scale by
the renormalized weights and scatter-add into the accumulator. -/
def moeExpertStep [AddCommMonoid M] [Module ℚ M] (xs : List M)
    (bk : List (List Nat) × List (List ℚ)) (ys : List M)
    (p : Nat × (M → M)) : List M :=
  let tx := bk.1.getD p.1 []
  if tx.isEmpty then ys
  else
    let current := tx.map (fun i => xs.getD i 0)
    let outs := List.zipWith (fun v w => w • v) (current.map p.2)
      (bk.2.getD p.1 [])
    indexAdd ys tx outs

/-- The Mixture-of-Experts forward on the flattened token rows. -/
def moeForward [AddCommMonoid M] [Module ℚ M] (gate : M → List ℚ)
    (experts : List (M → M)) (k : Nat) (xs : List M) : List M :=
  let rws := xs.map gate
  let bk := buildBuckets experts.length k rws
  experts.enum.foldl (moeExpertStep xs bk) (List.replicate xs.length 0)

/-- The amount one expert iteration adds at row `r`. -/
def moeContrib [AddCommMonoid M] [Module ℚ M] (xs : List M)
    (bk : List (List Nat) × List (List ℚ)) (p : Nat × (M → M))
    (r : Nat) : M :=
  let tx := bk.1.getD p.1 []
  let current := tx.map (fun i => xs.getD i 0)
  let outs := List.zipWith (fun v w => w • v) (current.map p.2)
    (bk.2.getD p.1 [])
  (((tx.zip outs).filter (fun q => decide (q.1 = r))).map Prod.snd).sum

/-- The per-row specification of the MoE output: the sum, over the
chosen experts of that row, of the renormalized routing weight times the
expert's output on the row. -/
def moeRowSpec [AddCommMonoid M] [Module ℚ M] (gate : M → List ℚ)
    (experts : List (M → M)) (k : Nat) (x : M) : M :=
  let rw := gate x
  ((selExperts k rw).map
    (fun e => (rw.getD e 0 / selSum k rw) • (experts.getD e id) x)).sum

theorem descSortIdx_perm (rw : List ℚ) :
    (descSortIdx rw).Perm (List.range rw.length) :=
  List.mergeSort_perm _ _

theorem descSortIdx_nodup (rw : List ℚ) : (descSortIdx rw).Nodup :=
  List.Nodup.perm (List.nodup_range _) (descSortIdx_perm rw).symm

theorem mem_descSortIdx {rw : List ℚ} {i : Nat} :
    i ∈ descSortIdx rw ↔ i < rw.length := by
  rw [(descSortIdx_perm rw).mem_iff, List.mem_range]

theorem descSortIdx_sorted (rw : List ℚ) :
    (descSortIdx rw).Pairwise (fun a b => rw.getD b 0 ≤ rw.getD a 0) := by
  have h := @List.sorted_mergeSort Nat
    (fun i j => decide (rw.getD j 0 ≤ rw.getD i 0))
    (fun a b c hab hbc => by
      simp only [decide_eq_true_eq] at *
      exact le_trans hbc hab)
    (fun a b => by
      simp only [Bool.or_eq_true, decide_eq_true_eq]
      exact le_total (rw.getD b 0) (rw.getD a 0))
    (List.range rw.length)
  exact h.imp (fun hab => by simpa using hab)

theorem descSortIdx_length (rw : List ℚ) :
    (descSortIdx rw).length = rw.length := by
  rw [descSortIdx, List.length_mergeSort, List.length_range]

theorem selExperts_nodup (k : Nat) (rw : List ℚ) :
    (selExperts k rw).Nodup :=
  List.Sublist.nodup (List.take_sublist k _) (descSortIdx_nodup rw)

theorem mem_selExperts_lt {k : Nat} {rw : List ℚ} {i : Nat}
    (h : i ∈ selExperts k rw) : i < rw.length :=
  mem_descSortIdx.mp (List.mem_of_mem_take h)

/-- The selection picks the `k` largest weights: any unchosen valid index
carries a weight no larger than any chosen one. -/
theorem selExperts_largest (k : Nat) (rw : List ℚ) (i : Nat)
    (hi : i ∈ selExperts k rw) (j : Nat) (hj : j < rw.length)
    (hjn : j ∉ selExperts k rw) : rw.getD j 0 ≤ rw.getD i 0 := by
  have hsort := descSortIdx_sorted rw
  have hsplit : descSortIdx rw
      = (descSortIdx rw).take k ++ (descSortIdx rw).drop k :=
    (List.take_append_drop k _).symm
  rw [hsplit, List.pairwise_append] at hsort
  have hjmem : j ∈ descSortIdx rw := mem_descSortIdx.mpr hj
  rw [hsplit, List.mem_append] at hjmem
  have hjd : j ∈ (descSortIdx rw).drop k := by
    rcases hjmem with h | h
    · exact absurd h hjn
    · exact h
  exact hsort.2.2 i hi j hjd

theorem selExperts_length_pos (k : Nat) (rw : List ℚ) (hk : 1 ≤ k)
    (hlen : 1 ≤ rw.length) : selExperts k rw ≠ [] := by
  have h : (selExperts k rw).length = min k rw.length := by
    rw [selExperts, List.length_take, descSortIdx_length]
  intro hcon
  rw [hcon] at h
  simp at h
  omega

/-- The renormalized weights of one row sum to 1 (softmax outputs are
strictly positive, so the selected sum is nonzero). -/
theorem selExperts_weights_sum_one (k : Nat) (rw : List ℚ) (hk : 1 ≤ k)
    (hlen : 1 ≤ rw.length) (hpos : ∀ w ∈ rw, 0 < w) :
    ((selExperts k rw).map (fun e => rw.getD e 0 / selSum k rw)).sum = 1 := by
  have hpos' : ∀ x ∈ (selExperts k rw).map (fun i => rw.getD i 0), 0 < x := by
    intro x hx
    rw [List.mem_map] at hx
    obtain ⟨i, hi, rfl⟩ := hx
    have hilt : i < rw.length := mem_selExperts_lt hi
    rw [List.getD_eq_getElem rw 0 hilt]
    exact hpos _ (rw.getElem_mem hilt)
  have hsumpos : 0 < selSum k rw := by
    rw [selSum]
    refine List.sum_pos _ hpos' ?_
    simp only [ne_eq, List.map_eq_nil_iff]
    exact selExperts_length_pos k rw hk hlen
  have hdiv : ∀ e ∈ selExperts k rw,
      rw.getD e 0 / selSum k rw = rw.getD e 0 * (selSum k rw)⁻¹ := by
    intro e _
    rw [div_eq_mul_inv]
  rw [List.map_congr_left hdiv, List.sum_map_mul_right]
  rw [← selSum]
  exact mul_inv_cancel₀ (ne_of_gt hsumpos)

theorem pushAt_length (l : List (List β)) (e : Nat) (v : β) :
    (pushAt l e v).length = l.length := by
  rw [pushAt, List.length_set]

theorem pushAt_getD (l : List (List β)) (e : Nat) (he : e < l.length)
    (v : β) (i : Nat) :
    (pushAt l e v).getD i []
      = if e = i then l.getD e [] ++ [v] else l.getD i [] := by
  rw [pushAt, List.getD_eq_getElem?_getD, List.getElem?_set]
  by_cases h : e = i
  · subst h
    simp [he]
  · simp [h, List.getD_eq_getElem?_getD]

theorem foldl_pushAt_length (dst : List Nat) (w : Nat → β)
    (tx : List (List β)) :
    (dst.foldl (fun a e => pushAt a e (w e)) tx).length = tx.length := by
  induction dst generalizing tx with
  | nil => rfl
  | cons d ds ih => rw [List.foldl_cons, ih, pushAt_length]

theorem foldl_pushAt_getD (dst : List Nat) (w : Nat → β)
    (tx : List (List β)) (hnd : dst.Nodup)
    (hb : ∀ e ∈ dst, e < tx.length) (i : Nat) :
    ((dst.foldl (fun a e => pushAt a e (w e)) tx).getD i [])
      = tx.getD i [] ++ (if i ∈ dst then [w i] else []) := by
  induction dst generalizing tx with
  | nil => simp
  | cons d ds ih =>
    have hd : d < tx.length := hb d (List.mem_cons_self d ds)
    have hnd' : ds.Nodup := (List.nodup_cons.mp hnd).2
    have hdn : d ∉ ds := (List.nodup_cons.mp hnd).1
    rw [List.foldl_cons,
      ih (pushAt tx d (w d)) hnd'
        (fun e he => by
          rw [pushAt_length]
          exact hb e (List.mem_cons_of_mem d he)),
      pushAt_getD tx d hd (w d) i]
    by_cases h : d = i
    · subst h
      rw [if_pos rfl, if_neg hdn, if_pos (List.mem_cons_self d ds)]
      simp
    · rw [if_neg h]
      by_cases h2 : i ∈ ds
      · rw [if_pos h2, if_pos (List.mem_cons_of_mem d h2)]
      · rw [if_neg h2, if_neg (by
          intro hcon
          rcases List.mem_cons.mp hcon with hcon | hcon
          · exact h hcon.symm
          · exact h2 hcon)]

theorem rowsFold_length (ps : List (Nat × List ℚ)) (k : Nat)
    (w : (Nat × List ℚ) → Nat → β) (tx0 : List (List β)) :
    (ps.foldl
        (fun a p => (selExperts k p.2).foldl
          (fun a e => pushAt a e (w p e)) a) tx0).length
      = tx0.length := by
  induction ps generalizing tx0 with
  | nil => rfl
  | cons p ps ih => rw [List.foldl_cons, ih, foldl_pushAt_length]

theorem rowsFold_getD (ps : List (Nat × List ℚ)) (k : Nat)
    (w : (Nat × List ℚ) → Nat → β) (tx0 : List (List β))
    (hb : ∀ p ∈ ps, ∀ e ∈ selExperts k p.2, e < tx0.length) (i : Nat) :
    ((ps.foldl
        (fun a p => (selExperts k p.2).foldl
          (fun a e => pushAt a e (w p e)) a) tx0).getD i [])
      = tx0.getD i []
        ++ ((ps.filter (fun p => decide (i ∈ selExperts k p.2))).map
            (fun p => w p i)) := by
  induction ps generalizing tx0 with
  | nil => simp
  | cons p ps ih =>
    rw [List.foldl_cons,
      ih ((selExperts k p.2).foldl (fun a e => pushAt a e (w p e)) tx0)
        (fun q hq e he => by
          rw [foldl_pushAt_length]
          exact hb q (List.mem_cons_of_mem p hq) e he),
      foldl_pushAt_getD (selExperts k p.2) (w p) tx0
        (selExperts_nodup k p.2)
        (fun e he => hb p (List.mem_cons_self p ps) e he) i]
    by_cases h : i ∈ selExperts k p.2
    · rw [if_pos h, List.filter_cons_of_pos (by simpa using h),
        List.map_cons, List.append_assoc]
      rfl
    · rw [if_neg h, List.filter_cons_of_neg (by simpa using h)]
      simp

theorem foldl_prod_split (ps : List γ) (f : A → γ → A) (g : B → γ → B)
    (a : A) (b : B) :
    ps.foldl (fun acc p => (f acc.1 p, g acc.2 p)) (a, b)
      = (ps.foldl f a, ps.foldl g b) := by
  induction ps generalizing a b with
  | nil => rfl
  | cons p ps ih =>
    rw [List.foldl_cons, List.foldl_cons, List.foldl_cons]
    exact ih (f a p) (g b p)

theorem replicate_nil_getD (n i : Nat) :
    (List.replicate n ([] : List β)).getD i [] = [] := by
  rw [List.getD_eq_getElem?_getD, List.getElem?_replicate]
  by_cases h : i < n <;> simp [h]

theorem buildBuckets_fst_getD (nExperts k : Nat) (rws : List (List ℚ))
    (hb : ∀ p ∈ rws.enum, ∀ e ∈ selExperts k p.2, e < nExperts) (i : Nat) :
    (buildBuckets nExperts k rws).1.getD i []
      = (rws.enum.filter (fun p => decide (i ∈ selExperts k p.2))).map
          Prod.fst := by
  rw [buildBuckets, foldl_prod_split]
  have h := rowsFold_getD rws.enum k (fun p _ => p.1)
    (List.replicate nExperts []) (by simpa using hb) i
  simp only [replicate_nil_getD, List.nil_append] at h
  exact h

theorem buildBuckets_snd_getD (nExperts k : Nat) (rws : List (List ℚ))
    (hb : ∀ p ∈ rws.enum, ∀ e ∈ selExperts k p.2, e < nExperts) (i : Nat) :
    (buildBuckets nExperts k rws).2.getD i []
      = (rws.enum.filter (fun p => decide (i ∈ selExperts k p.2))).map
          (fun p => p.2.getD i 0 / selSum k p.2) := by
  rw [buildBuckets, foldl_prod_split]
  have h := rowsFold_getD rws.enum k
    (fun p e => p.2.getD e 0 / selSum k p.2)
    (List.replicate nExperts []) (by simpa using hb) i
  simp only [replicate_nil_getD, List.nil_append] at h
  exact h

theorem mem_enum_fst_lt {l : List γ} {p : Nat × γ} (h : p ∈ l.enum) :
    p.1 < l.length := by
  obtain ⟨i, x⟩ := p
  obtain ⟨-, h2, -⟩ := List.mem_enumFrom h
  simpa using h2

theorem mem_enum_snd_eq {l : List γ} {p : Nat × γ} (h : p ∈ l.enum) :
    ∃ hlt : p.1 < l.length, p.2 = l.get ⟨p.1, hlt⟩ := by
  obtain ⟨i, x⟩ := p
  obtain ⟨-, h2, h3⟩ := List.mem_enumFrom h
  refine ⟨by simpa using h2, ?_⟩
  simpa using h3

theorem indexAdd_foldl_length [AddCommMonoid M] (l : List (Nat × M))
    (ys : List M) :
    (l.foldl (fun a p => a.set p.1 (a.getD p.1 0 + p.2)) ys).length
      = ys.length := by
  induction l generalizing ys with
  | nil => rfl
  | cons p l ih => rw [List.foldl_cons, ih, List.length_set]

theorem indexAdd_foldl_getD [AddCommMonoid M] (l : List (Nat × M))
    (ys : List M) (hb : ∀ p ∈ l, p.1 < ys.length) (r : Nat) :
    (l.foldl (fun a p => a.set p.1 (a.getD p.1 0 + p.2)) ys).getD r 0
      = ys.getD r 0
        + ((l.filter (fun p => decide (p.1 = r))).map Prod.snd).sum := by
  induction l generalizing ys with
  | nil => simp
  | cons p l ih =>
    have hp : p.1 < ys.length := hb p (List.mem_cons_self p l)
    rw [List.foldl_cons,
      ih (ys.set p.1 (ys.getD p.1 0 + p.2))
        (fun q hq => by
          rw [List.length_set]
          exact hb q (List.mem_cons_of_mem p hq))]
    by_cases h : p.1 = r
    · subst h
      rw [List.filter_cons_of_pos (by simp), List.map_cons, List.sum_cons]
      have hset : (ys.set p.1 (ys.getD p.1 0 + p.2)).getD p.1 0
          = ys.getD p.1 0 + p.2 := by
        rw [List.getD_eq_getElem?_getD, List.getElem?_set_self hp]
        rfl
      rw [hset, add_assoc]
    · rw [List.filter_cons_of_neg (by simpa using h)]
      have hset : (ys.set p.1 (ys.getD p.1 0 + p.2)).getD r 0
          = ys.getD r 0 := by
        rw [List.getD_eq_getElem?_getD, List.getElem?_set_ne h,
          ← List.getD_eq_getElem?_getD]
      rw [hset]

theorem indexAdd_length [AddCommMonoid M] (ys : List M) (ixs : List Nat)
    (vals : List M) : (indexAdd ys ixs vals).length = ys.length :=
  indexAdd_foldl_length _ _

theorem moeExpertStep_length [AddCommMonoid M] [Module ℚ M] (xs : List M)
    (bk : List (List Nat) × List (List ℚ)) (ys : List M)
    (p : Nat × (M → M)) : (moeExpertStep xs bk ys p).length = ys.length := by
  rw [moeExpertStep]
  by_cases h : (bk.1.getD p.1 []).isEmpty
  · rw [if_pos h]
  · rw [if_neg h]
    exact indexAdd_length _ _ _

theorem moeExpertStep_getD [AddCommMonoid M] [Module ℚ M] (xs : List M)
    (bk : List (List Nat) × List (List ℚ)) (ys : List M)
    (p : Nat × (M → M)) (htx : ∀ i ∈ bk.1.getD p.1 [], i < ys.length)
    (r : Nat) :
    (moeExpertStep xs bk ys p).getD r 0
      = ys.getD r 0 + moeContrib xs bk p r := by
  rw [moeExpertStep, moeContrib]
  by_cases h : (bk.1.getD p.1 []).isEmpty
  · rw [if_pos h]
    rw [List.isEmpty_iff] at h
    rw [h]
    simp
  · rw [if_neg h]
    rw [indexAdd]
    rw [indexAdd_foldl_getD _ ys
      (fun q hq => htx q.1 (List.of_mem_zip hq).1) r]

theorem expertFold_length [AddCommMonoid M] [Module ℚ M]
    (es : List (Nat × (M → M))) (xs : List M)
    (bk : List (List Nat) × List (List ℚ)) (ys : List M) :
    (es.foldl (moeExpertStep xs bk) ys).length = ys.length := by
  induction es generalizing ys with
  | nil => rfl
  | cons p es ih =>
    rw [List.foldl_cons, ih, moeExpertStep_length]

theorem expertFold_getD [AddCommMonoid M] [Module ℚ M]
    (es : List (Nat × (M → M))) (xs : List M)
    (bk : List (List Nat) × List (List ℚ)) (ys : List M)
    (hbk : ∀ p ∈ es, ∀ i ∈ bk.1.getD p.1 [], i < ys.length) (r : Nat) :
    (es.foldl (moeExpertStep xs bk) ys).getD r 0
      = ys.getD r 0 + (es.map (fun p => moeContrib xs bk p r)).sum := by
  induction es generalizing ys with
  | nil => simp
  | cons p es ih =>
    rw [List.foldl_cons,
      ih (moeExpertStep xs bk ys p)
        (fun q hq i hi => by
          rw [moeExpertStep_length]
          exact hbk q (List.mem_cons_of_mem p hq) i hi),
      moeExpertStep_getD xs bk ys p
        (fun i hi => hbk p (List.mem_cons_self p es) i hi) r,
      List.map_cons, List.sum_cons, add_assoc]

theorem zipWith_map_same (f : γ → δ → ε) (g : α → γ) (h : α → δ)
    (l : List α) :
    List.zipWith f (l.map g) (l.map h) = l.map (fun a => f (g a) (h a)) := by
  induction l with
  | nil => rfl
  | cons a l ih => simp [ih]

theorem filter_comm (p q : γ → Bool) (l : List γ) :
    (l.filter p).filter q = (l.filter q).filter p := by
  rw [List.filter_filter, List.filter_filter]
  exact List.filter_congr (fun a _ => by rw [Bool.and_comm])

theorem enumFrom_filter_fst (l : List γ) (d : γ) (n r : Nat) :
    (List.enumFrom n l).filter (fun p => decide (p.1 = r))
      = if n ≤ r ∧ r < n + l.length then [(r, l.getD (r - n) d)]
        else [] := by
  induction l generalizing n with
  | nil =>
    rw [List.enumFrom_nil, if_neg (by
      simp only [List.length_nil]
      omega)]
    rfl
  | cons a t ih =>
    rw [List.enumFrom_cons, List.filter_cons]
    by_cases h : n = r
    · subst h
      rw [if_pos (by simp), ih (n + 1), if_neg (by omega),
        if_pos (by constructor <;> [omega; simp])]
      simp
    · rw [if_neg (by simpa using h), ih (n + 1)]
      by_cases h2 : n + 1 ≤ r ∧ r < n + 1 + t.length
      · rw [if_pos h2, if_pos (by
          simp only [List.length_cons]
          omega)]
        have he : r - n = (r - (n + 1)) + 1 := by omega
        rw [he, List.getD_cons_succ]
      · rw [if_neg h2, if_neg (by
          simp only [List.length_cons]
          omega)]

theorem sum_ite_mem [AddCommMonoid M] (L sel : List Nat) (hL : L.Nodup)
    (hsel : sel.Nodup) (hsub : ∀ e ∈ sel, e ∈ L) (h : Nat → M) :
    (L.map (fun e => if e ∈ sel then h e else 0)).sum = (sel.map h).sum := by
  induction L generalizing sel with
  | nil =>
    cases sel with
    | nil => rfl
    | cons s ss =>
      exact absurd (hsub s (List.mem_cons_self s ss)) (List.not_mem_nil s)
  | cons a L ih =>
    have haL : a ∉ L := (List.nodup_cons.mp hL).1
    have hL' : L.Nodup := (List.nodup_cons.mp hL).2
    rw [List.map_cons, List.sum_cons]
    by_cases ha : a ∈ sel
    · rw [if_pos ha]
      have hperm : sel.Perm (a :: sel.erase a) := List.perm_cons_erase ha
      rw [(hperm.map h).sum_eq, List.map_cons, List.sum_cons]
      congr 1
      have hcongr : ∀ e ∈ L,
          (if e ∈ sel then h e else 0)
            = (if e ∈ sel.erase a then h e else 0) := by
        intro e heL
        have hea : e ≠ a := fun hc => haL (hc ▸ heL)
        by_cases hes : e ∈ sel
        · rw [if_pos hes, if_pos ((List.mem_erase_of_ne hea).mpr hes)]
        · rw [if_neg hes, if_neg (fun hc => hes (List.mem_of_mem_erase hc))]
      rw [List.map_congr_left hcongr]
      refine ih (sel.erase a) hL' (hsel.erase a) ?_
      intro e he
      have hesel : e ∈ sel := List.mem_of_mem_erase he
      have hea : e ≠ a := by
        intro hc
        subst hc
        exact absurd he (by
          intro hc2
          exact (((hsel.mem_erase_iff).mp hc2).1) rfl)
      rcases List.mem_cons.mp (hsub e hesel) with hc | hc
      · exact absurd hc hea
      · exact hc
    · rw [if_neg ha, zero_add]
      refine ih sel hL' hsel ?_
      intro e he
      have hne : e ≠ a := fun hc => ha (hc ▸ he)
      rcases List.mem_cons.mp (hsub e he) with hc | hc
      · exact absurd hc hne
      · exact hc

theorem map_getD_of_lt (f : α → γ) (xs : List α) (r : Nat)
    (hr : r < xs.length) [Inhabited α] [Inhabited γ] :
    (xs.map f).getD r default = f (xs.getD r default) := by
  rw [List.getD_eq_getElem _ _ (by simpa using hr),
    List.getD_eq_getElem _ _ hr, List.getElem_map]

theorem replicate_zero_getD [AddCommMonoid M] (n r : Nat) :
    (List.replicate n (0 : M)).getD r 0 = 0 := by
  rw [List.getD_eq_getElem?_getD, List.getElem?_replicate]
  by_cases h : r < n <;> simp [h]

theorem moeContrib_eq [AddCommMonoid M] [Module ℚ M] (gate : M → List ℚ)
    (experts : List (M → M)) (k : Nat) (xs : List M)
    (hE : ∀ x ∈ xs, (gate x).length = experts.length)
    (p : Nat × (M → M)) (r : Nat) (hr : r < xs.length) :
    moeContrib xs (buildBuckets experts.length k (xs.map gate)) p r
      = if p.1 ∈ selExperts k (gate (xs.getD r 0))
        then ((gate (xs.getD r 0)).getD p.1 0
            / selSum k (gate (xs.getD r 0))) • p.2 (xs.getD r 0)
        else 0 := by
  have hb : ∀ q ∈ (xs.map gate).enum, ∀ e ∈ selExperts k q.2,
      e < experts.length := by
    intro q hq e he
    obtain ⟨hlt, hsnd⟩ := mem_enum_snd_eq hq
    have hq2 : q.2.length = experts.length := by
      rw [hsnd, List.get_eq_getElem, List.getElem_map]
      exact hE _ (List.getElem_mem _)
    have := mem_selExperts_lt he
    omega
  have hgd : (xs.map gate).getD r [] = gate (xs.getD r 0) := by
    rw [List.getD_eq_getElem _ _ (by simpa using hr),
      List.getD_eq_getElem _ _ hr, List.getElem_map]
  simp only [moeContrib]
  rw [buildBuckets_fst_getD experts.length k (xs.map gate) hb p.1,
    buildBuckets_snd_getD experts.length k (xs.map gate) hb p.1,
    List.map_map, List.map_map, zipWith_map_same, List.zip_map',
    List.filter_map, List.map_map]
  simp only [Function.comp_def]
  rw [filter_comm,
    show (xs.map gate).enum = List.enumFrom 0 (xs.map gate) from rfl,
    enumFrom_filter_fst (xs.map gate) [] 0 r,
    if_pos (by
      refine ⟨Nat.zero_le r, ?_⟩
      simpa using hr),
    Nat.sub_zero, hgd]
  by_cases hmem : p.1 ∈ selExperts k (gate (xs.getD r 0))
  · rw [if_pos hmem, List.filter_cons_of_pos (by simpa using hmem)]
    simp
  · rw [if_neg hmem, List.filter_cons_of_neg (by simpa using hmem)]
    simp

/-- Claim C6: in the Mixture-of-Experts feed-forward, for every token row
the `n_expert_used` largest softmaxed routing weights are selected by the
deterministic descending total-order sort (any unchosen index carries a
weight no larger than any chosen one), the selected weights are
renormalized to sum to 1, each chosen expert's dense-MLP output for the
row is multiplied by its renormalized weight and scatter-added into the
accumulator — every output row equals the weighted sum over exactly its
chosen experts — and an expert whose bucket is empty is skipped, its
iteration leaving the accumulator exactly unchanged. -/
theorem c6_moe_forward [AddCommMonoid M] [Module ℚ M] (gate : M → List ℚ)
    (experts : List (M → M)) (k : Nat) (xs : List M)
    (hE : ∀ x ∈ xs, (gate x).length = experts.length)
    (hk : 1 ≤ k) (hexp : 1 ≤ experts.length)
    (hpos : ∀ x ∈ xs, ∀ w ∈ gate x, 0 < w) :
    ((moeForward gate experts k xs).length = xs.length
      ∧ ∀ r, r < xs.length →
          (moeForward gate experts k xs).getD r 0
            = moeRowSpec gate experts k (xs.getD r 0))
    ∧ (∀ x ∈ xs,
        ((selExperts k (gate x)).map
          (fun e => (gate x).getD e 0 / selSum k (gate x))).sum = 1)
    ∧ (∀ x ∈ xs, ∀ i ∈ selExperts k (gate x), ∀ j, j < (gate x).length →
        j ∉ selExperts k (gate x) →
        (gate x).getD j 0 ≤ (gate x).getD i 0)
    ∧ (∀ (ys : List M) (e : Nat) (f : M → M),
        (buildBuckets experts.length k (xs.map gate)).1.getD e [] = [] →
        moeExpertStep xs (buildBuckets experts.length k (xs.map gate))
          ys (e, f) = ys) := by
  refine ⟨⟨?_, ?_⟩, ?_, ?_, ?_⟩
  · exact (expertFold_length experts.enum xs
      (buildBuckets experts.length k (xs.map gate))
      (List.replicate xs.length 0)).trans (List.length_replicate _ _)
  · intro r hr
    have hxmem : xs.getD r 0 ∈ xs := by
      rw [List.getD_eq_getElem _ _ hr]
      exact List.getElem_mem _
    have hbb : ∀ q ∈ (xs.map gate).enum, ∀ e ∈ selExperts k q.2,
        e < experts.length := by
      intro q hq e he
      obtain ⟨hlt, hsnd⟩ := mem_enum_snd_eq hq
      have hq2 : q.2.length = experts.length := by
        rw [hsnd, List.get_eq_getElem, List.getElem_map]
        exact hE _ (List.getElem_mem _)
      have := mem_selExperts_lt he
      omega
    have hb2 : ∀ p ∈ experts.enum,
        ∀ i ∈ (buildBuckets experts.length k (xs.map gate)).1.getD p.1 [],
        i < (List.replicate xs.length (0 : M)).length := by
      intro p _ i hi
      rw [buildBuckets_fst_getD experts.length k (xs.map gate) hbb p.1]
        at hi
      rw [List.mem_map] at hi
      obtain ⟨q, hq, rfl⟩ := hi
      have hq' : q ∈ (xs.map gate).enum := (List.mem_filter.mp hq).1
      have := mem_enum_fst_lt hq'
      simpa using this
    have hsub : ∀ e ∈ selExperts k (gate (xs.getD r 0)),
        e ∈ List.range experts.length := by
      intro e he
      rw [List.mem_range]
      have h1 := mem_selExperts_lt he
      rw [hE _ hxmem] at h1
      exact h1
    calc (moeForward gate experts k xs).getD r 0
        = (List.replicate xs.length (0 : M)).getD r 0
          + (experts.enum.map (fun p => moeContrib xs
              (buildBuckets experts.length k (xs.map gate)) p r)).sum :=
          expertFold_getD experts.enum xs
            (buildBuckets experts.length k (xs.map gate))
            (List.replicate xs.length 0) hb2 r
      _ = (experts.enum.map (fun p => moeContrib xs
              (buildBuckets experts.length k (xs.map gate)) p r)).sum := by
          rw [replicate_zero_getD, zero_add]
      _ = (experts.enum.map (fun p =>
            if p.1 ∈ selExperts k (gate (xs.getD r 0))
            then ((gate (xs.getD r 0)).getD p.1 0
                / selSum k (gate (xs.getD r 0))) • p.2 (xs.getD r 0)
            else 0)).sum := by
          rw [List.map_congr_left
            (fun p _ => moeContrib_eq gate experts k xs hE p r hr)]
      _ = (experts.enum.map (fun p =>
            if p.1 ∈ selExperts k (gate (xs.getD r 0))
            then ((gate (xs.getD r 0)).getD p.1 0
                / selSum k (gate (xs.getD r 0)))
              • (experts.getD p.1 id) (xs.getD r 0)
            else 0)).sum := by
          refine congrArg List.sum (List.map_congr_left ?_)
          intro p hp
          obtain ⟨hlt, hsnd⟩ := mem_enum_snd_eq hp
          rw [hsnd, List.get_eq_getElem,
            List.getD_eq_getElem experts id hlt]
      _ = ((experts.enum.map Prod.fst).map (fun e =>
            if e ∈ selExperts k (gate (xs.getD r 0))
            then ((gate (xs.getD r 0)).getD e 0
                / selSum k (gate (xs.getD r 0)))
              • (experts.getD e id) (xs.getD r 0)
            else 0)).sum := by
          rw [List.map_map]
          rfl
      _ = ((List.range experts.length).map (fun e =>
            if e ∈ selExperts k (gate (xs.getD r 0))
            then ((gate (xs.getD r 0)).getD e 0
                / selSum k (gate (xs.getD r 0)))
              • (experts.getD e id) (xs.getD r 0)
            else 0)).sum := by
          rw [List.enum_map_fst]
      _ = ((selExperts k (gate (xs.getD r 0))).map (fun e =>
            ((gate (xs.getD r 0)).getD e 0
                / selSum k (gate (xs.getD r 0)))
              • (experts.getD e id) (xs.getD r 0))).sum :=
          sum_ite_mem (List.range experts.length)
            (selExperts k (gate (xs.getD r 0))) (List.nodup_range _)
            (selExperts_nodup _ _) hsub _
      _ = moeRowSpec gate experts k (xs.getD r 0) := rfl
  · intro x hx
    refine selExperts_weights_sum_one k (gate x) hk ?_ (hpos x hx)
    rw [hE x hx]
    exact hexp
  · intro x _ i hi j hjlt hjn
    exact selExperts_largest k (gate x) i hi j hjlt hjn
  · intro ys e f hempty
    have h1 : (buildBuckets experts.length k
        (xs.map gate)).1.getD ((e, f) : Nat × (M → M)).1 [] = [] := hempty
    simp only [moeExpertStep, h1, hempty, List.isEmpty_nil, if_true]

/-- Witness for claim C6 on a concrete one-row, three-expert, top-2
instance with positive routing weights. -/
theorem c6_moe_forward_witness :
    (∀ x ∈ ([5] : List ℚ), ∀ w ∈ [(4 : ℚ), 2, 1], 0 < w)
      ∧ (moeForward (fun _ : ℚ => [(4 : ℚ), 2, 1])
            [fun x : ℚ => x, fun x => x + 1, fun _ => 0] 2 [5]).getD 0 0
        = moeRowSpec (fun _ : ℚ => [(4 : ℚ), 2, 1])
            [fun x : ℚ => x, fun x => x + 1, fun _ => 0] 2
            (([5] : List ℚ).getD 0 0) :=
  ⟨by decide,
    (c6_moe_forward (fun _ : ℚ => [(4 : ℚ), 2, 1])
      [fun x : ℚ => x, fun x => x + 1, fun _ => 0] 2 [5]
      (by decide) (by decide) (by decide) (by decide)).1.2 0 (by decide)⟩

end MistralRs
